import Mathlib

/-!
Verification of the author-name normalization and citation-key generation
of `publications/models/publication.py` (djangocms-publications).

Strings are modelled as `List Char`; the Python string primitives used by the
source (`str.replace`, `str.split`, `str.strip`, `str.join`, `str.find`,
slicing) are embedded with their Python semantics.
-/

namespace Pubs

/-- Strings are modelled as lists of characters. -/
abbrev Str := List Char

/-- Shorthand to write character-list literals. -/
def strL (s : String) : Str := s.toList

/-- Fuel-driven worker for `replace`.  The fuel drops by one per step while
at least one character is consumed per step, so fuel `s.length` never runs
out; structural recursion on the fuel keeps the function kernel-reducible. -/
def replaceGo (pat rep : Str) : Nat → Str → Str
  | _, [] => []
  | 0, s => s
  | fuel + 1, c :: cs =>
    if pat ≠ [] ∧ pat.isPrefixOf (c :: cs) then
      rep ++ replaceGo pat rep fuel ((c :: cs).drop pat.length)
    else
      c :: replaceGo pat rep fuel cs

/-- Python `str.replace` for a nonempty pattern: one left-to-right,
non-overlapping pass over the whole string.  (For an empty pattern the
string is returned unchanged; the source only uses nonempty patterns.) -/
def replace (pat rep s : Str) : Str := replaceGo pat rep s.length s

theorem replaceGo_fuel_irrel (pat rep : Str) :
    ∀ (f₁ f₂ : Nat) (s : Str), s.length ≤ f₁ → s.length ≤ f₂ →
      replaceGo pat rep f₁ s = replaceGo pat rep f₂ s := by
  intro f₁
  induction f₁ with
  | zero =>
    intro f₂ s hs₁ _
    have : s = [] := by
      cases s with
      | nil => rfl
      | cons c cs => simp at hs₁
    subst this
    cases f₂ <;> rfl
  | succ g₁ ih =>
    intro f₂ s hs₁ hs₂
    cases s with
    | nil => cases f₂ <;> rfl
    | cons c cs =>
      cases f₂ with
      | zero => simp at hs₂
      | succ g₂ =>
        simp only [replaceGo]
        by_cases h : pat ≠ [] ∧ pat.isPrefixOf (c :: cs)
        · rw [if_pos h, if_pos h]
          have hp : 0 < pat.length := List.length_pos.mpr h.1
          have hd : ((c :: cs).drop pat.length).length ≤ g₁ := by
            simp only [List.length_drop, List.length_cons]
            simp only [List.length_cons] at hs₁
            omega
          have hd₂ : ((c :: cs).drop pat.length).length ≤ g₂ := by
            simp only [List.length_drop, List.length_cons]
            simp only [List.length_cons] at hs₂
            omega
          rw [ih g₂ _ hd hd₂]
        · rw [if_neg h, if_neg h]
          have h₁ : cs.length ≤ g₁ := by simp only [List.length_cons] at hs₁; omega
          have h₂ : cs.length ≤ g₂ := by simp only [List.length_cons] at hs₂; omega
          rw [ih g₂ _ h₁ h₂]

@[simp] theorem replace_nil (pat rep : Str) : replace pat rep [] = [] := rfl

theorem replace_cons_pos {pat : Str} (rep : Str) {c : Char} {cs : Str}
    (h : pat ≠ []) (hp : pat.isPrefixOf (c :: cs)) :
    replace pat rep (c :: cs) = rep ++ replace pat rep ((c :: cs).drop pat.length) := by
  have hlen : 0 < pat.length := List.length_pos.mpr h
  unfold replace
  simp only [List.length_cons, replaceGo, if_pos (And.intro h hp)]
  congr 1
  exact replaceGo_fuel_irrel pat rep cs.length _ _
    (by simp only [List.length_drop, List.length_cons]; omega) (le_refl _)

theorem replace_cons_neg {pat : Str} (rep : Str) {c : Char} {cs : Str}
    (h : ¬(pat ≠ [] ∧ pat.isPrefixOf (c :: cs))) :
    replace pat rep (c :: cs) = c :: replace pat rep cs := by
  unfold replace
  simp only [List.length_cons, replaceGo, if_neg h]

/-- Python `str.split(sep)` for a one-character separator: keeps empty fields,
always returns at least one field. -/
def splitOn (sep : Char) : Str → List Str
  | [] => [[]]
  | c :: cs =>
    if c = sep then [] :: splitOn sep cs
    else
      match splitOn sep cs with
      | [] => [[c]]
      | t :: ts => (c :: t) :: ts

/-- ASCII whitespace, as stripped by Python `str.strip()`. -/
def isPySpace (c : Char) : Bool :=
  c = ' ' || c = '\t' || c = '\n' || c = '\r' || c = '\x0b' || c = '\x0c'

/-- Python `str.strip()` (restricted to ASCII whitespace). -/
def pyStrip (s : Str) : Str :=
  ((s.dropWhile isPySpace).reverse.dropWhile isPySpace).reverse

/-- Python `sep.join(xs)`. -/
def pyJoin (sep : Str) : List Str → Str
  | [] => []
  | [x] => x
  | x :: y :: xs => x ++ sep ++ pyJoin sep (y :: xs)

/-- The separator normalization applied to the authors string
(`publication.py` lines 87-90): `', and '`, `',and '`, `' and '` are each
replaced by `', '`, and finally `';'` by `','`. -/
def sepNormalize (s : Str) : Str :=
  replace (strL ";") (strL ",")
    (replace (strL " and ") (strL ", ")
      (replace (strL ",and ") (strL ", ")
        (replace (strL ", and ") (strL ", ") s)))

/-- The suffix set of the source (`suffixes` at line 102). -/
def suffixes : List Str :=
  [strL "I", strL "II", strL "III", strL "IV", strL "V", strL "VI",
   strL "VII", strL "VIII", strL "Jr.", strL "Sr."]

/-- The prefix set of the source (line 103). -/
def prefixes : List Str := [strL "Dr."]

/-- The preposition set of the source (line 104). -/
def prepositions : List Str :=
  [strL "van", strL "von", strL "der", strL "de", strL "den"]

/-- Membership in Python's `string.ascii_uppercase`. -/
def isUpperAscii (c : Char) : Bool := 'A' ≤ c && c ≤ 'Z'

/-- The initials-from-surname-suffix detection (lines 113-118): if the last
word has length at most 3, is not a suffix word and consists of uppercase
ASCII letters, each of its characters becomes a token followed by `'.'`,
prepended before the remaining words. -/
def initialsStep (names : List Str) : List Str :=
  match names.getLast? with
  | none => names
  | some lastw =>
    if lastw.length ≤ 3 && !(suffixes.contains lastw) && lastw.all isUpperAscii then
      lastw.map (fun c => [c, '.']) ++ names.dropLast
    else names

/-- Number of trailing suffix words (lines 120-126). -/
def numSuffixes (names : List Str) : Nat :=
  (names.reverse.takeWhile (fun w => suffixes.contains w)).length

/-- Abbreviation of a single word (lines 136-142), with Python `str.find`
translated to `List.indexOf` (absence is `-1` in Python and `length` here;
the guard `0 < k + 1 < len` becomes `k + 1 < length`). -/
def abbrevWord (w : Str) : Str :=
  if w.length > 2 || (!w.isEmpty && !(w.getLastD ' ' = '.')) then
    let k := w.indexOf '-'
    if k + 1 < w.length then
      [w.getD 0 ' ', '.', '-', w.getD (k + 1) ' ', '.']
    else
      [w.getD 0 ' ', '.']
  else w

/-- One step of the abbreviation loop at position `j` (lines 129-142):
position 0 skips prefix words, later positions skip prepositions. -/
def abbrevAt (j : Nat) (w : Str) : Str :=
  if j = 0 ∧ prefixes.contains w = true then w
  else if 0 < j ∧ prepositions.contains w = true then w
  else abbrevWord w

/-- The abbreviation loop body: words at index below `bound` are abbreviated
in place, the rest are kept. -/
def abbrevGo (bound : Nat) : Nat → List Str → List Str
  | _, [] => []
  | j, w :: ws => (if j < bound then abbrevAt j w else w) :: abbrevGo bound (j + 1) ws

/-- The abbreviation pass over `names[:-1 - num_suffixes]` (line 129). -/
def abbrevPass (names : List Str) : List Str :=
  abbrevGo (names.length - (1 + numSuffixes names)) 0 names

/-- Python `str.lower()` restricted to the characters the pipeline meets:
ASCII letters and the four documented diacritics. -/
def pyLowerChar (c : Char) : Char :=
  if 'A' ≤ c && c ≤ 'Z' then Char.ofNat (c.toNat + 32)
  else if c = 'Ä' then 'ä'
  else if c = 'Ö' then 'ö'
  else if c = 'Ü' then 'ü'
  else c

/-- `Publication.simplify_name` (lines 313-320): lowercase, then fold
`ä→ae`, `ö→oe`, `ü→ue`, `ß→ss`. -/
def simplifyName (s : Str) : Str :=
  replace (strL "ß") (strL "ss")
    (replace (strL "ü") (strL "ue")
      (replace (strL "ö") (strL "oe")
        (replace (strL "ä") (strL "ae") (s.map pyLowerChar))))

/-- Simplified-name entries contributed by one processed word list
(lines 148-153): with several words, one entry per hyphen segment of the
first word, paired with the last word; otherwise the single word folded. -/
def simplesFor (names : List Str) : List Str :=
  if names.length > 1 then
    (splitOn '-' (names.headD [])).map
      (fun seg => simplifyName (seg ++ [' '] ++ names.getLastD []))
  else
    [simplifyName (names.headD [])]

/-- Processing of one stripped author token (lines 107-153): empty tokens are
skipped; otherwise split on spaces, apply the initials step and the
abbreviation pass, rejoin, and derive the simplified entries. -/
def processToken (author : Str) : Str × List Str :=
  if author = [] then (author, [])
  else
    let names := abbrevPass (initialsStep (splitOn ' ' author))
    if names ≠ [] then (pyJoin [' '] names, simplesFor names)
    else (author, [])

/-- The display-string rewrite (lines 159-166). -/
def displayRewrite (alist : List Str) : Str :=
  if alist.length > 2 then
    pyJoin (strL ", and ") [pyJoin (strL ", ") alist.dropLast, alist.getLastD []]
  else if alist.length > 1 then
    pyJoin (strL " and ") alist
  else
    alist.headD []

/-- The outputs of author post-processing in `Publication.__init__`. -/
structure AuthorsResult where
  authors : Str
  authors_list : List Str
  authors_list_simple : Option (List Str)
  authors_bibtex : Option Str
deriving Repr, DecidableEq

/-- The token list: split the separator-normalized string on `','` and strip
each field (line 93). -/
def tokensOf (s : Str) : List Str := (splitOn ',' (sepNormalize s)).map pyStrip

/-- The brace-escape test of line 83: the raw string is nonempty, its first
character is `'\x7b'` and its last character is `'\x7d'`.  (No trimming.) -/
def escaped (s : Str) : Prop :=
  s ≠ [] ∧ s.headD ' ' = '\x7b' ∧ s.getLastD ' ' = '\x7d'

instance (s : Str) : Decidable (escaped s) := by
  unfold escaped; infer_instance

/-- Author post-processing of `Publication.__init__` (lines 82-166).  In the
brace-escaped branch the interior is the single author and neither the
simplified list nor the BibTeX string is computed (`none`); otherwise the
full pipeline runs. -/
def processAuthors (input : Str) : AuthorsResult :=
  if escaped input then
    { authors := input
      authors_list := [(input.drop 1).dropLast]
      authors_list_simple := none
      authors_bibtex := none }
  else
    let processed := (tokensOf input).map processToken
    let alist := processed.map Prod.fst
    { authors := displayRewrite alist
      authors_list := alist
      authors_list_simple := some (List.flatten (processed.map Prod.snd))
      authors_bibtex := some (pyJoin (strL " and ") alist) }

/-- A persisted publication record, reduced to the fields `key` consults. -/
structure Pub where
  pid : Nat
  year : Nat
  month : Nat
  authors_list : List Str
deriving Repr, DecidableEq

/-- The first author's surname: last space-separated word of the first
authors-list entry (line 201). -/
def firstSurname (p : Pub) : Str := (splitOn ' ' (p.authors_list.headD [])).getLastD []

/-- The disambiguation scan of `Publication.key` (lines 208-215): stop at the
record itself, increment for every earlier sibling with the same first-author
surname. -/
def keyLoop (selfPid : Nat) (surname : Str) : List Pub → Nat → Nat
  | [], ch => ch
  | p :: ps, ch =>
    if p.pid = selfPid then ch
    else keyLoop selfPid surname ps (if firstSurname p = surname then ch + 1 else ch)

/-- `Publication.key` (lines 199-217), taking the already-ordered sibling
query result as input: surname, decimal year, and the scanned letter. -/
def key (self : Pub) (siblings : List Pub) : Str :=
  firstSurname self ++ Nat.toDigits 10 self.year ++
    [Char.ofNat (keyLoop self.pid (firstSurname self) siblings 'a'.toNat)]

/-! ### The citekey scan characterized by takeWhile and filter -/

theorem keyLoop_eq (selfPid : Nat) (surname : Str) (l : List Pub) (acc : Nat) :
    keyLoop selfPid surname l acc =
      acc + ((l.takeWhile (fun p => !(p.pid == selfPid))).filter
        (fun p => firstSurname p == surname)).length := by
  induction l generalizing acc with
  | nil => simp [keyLoop]
  | cons p ps ih =>
    by_cases h : p.pid = selfPid
    · simp [keyLoop, h, List.takeWhile_cons]
    · rw [keyLoop, if_neg h, ih]
      have hb : (p.pid == selfPid) = false := by simpa using h
      simp only [List.takeWhile_cons, hb, Bool.not_false, if_true, List.filter_cons]
      by_cases hs : firstSurname p = surname
      · have : (firstSurname p == surname) = true := by simpa using hs
        simp [hs, this]; omega
      · have : (firstSurname p == surname) = false := by simpa using hs
        simp [hs, this]

/-! ### Concrete records used in the citekey claims -/

def c1p1 : Pub := { pid := 1, year := 2020, month := 1, authors_list := [strL "A. Smith"] }

def c1p2 : Pub := { pid := 2, year := 2020, month := 3, authors_list := [strL "B. Smith"] }

def c1p3 : Pub := { pid := 3, year := 2020, month := 3, authors_list := [strL "C. Smith"] }

def c1sibs : List Pub := [c1p1, c1p2, c1p3]

/-- Claim C1: for a record with at least one author and any sibling sequence
ordered by (month asc, id asc) containing it, the key is surname ++ year ++
letter, the letter being `'a'` advanced once per earlier sibling with the
same first-author surname; in particular the Jan/Mar/Mar Smith records get
keys `Smith2020a`, `Smith2020b`, `Smith2020c`. -/
theorem c1_key_disambiguation :
    (∀ (self : Pub) (sibs : List Pub),
      self.authors_list ≠ [] →
      (∃ p ∈ sibs, p.pid = self.pid) →
      sibs.Pairwise (fun p q => p.month < q.month ∨ (p.month = q.month ∧ p.pid < q.pid)) →
      key self sibs = firstSurname self ++ Nat.toDigits 10 self.year ++
        [Char.ofNat ('a'.toNat +
          ((sibs.takeWhile (fun p => !(p.pid == self.pid))).filter
            (fun p => firstSurname p == firstSurname self)).length)]) ∧
    key c1p1 c1sibs = strL "Smith2020a" ∧
    key c1p2 c1sibs = strL "Smith2020b" ∧
    key c1p3 c1sibs = strL "Smith2020c" := by
  refine ⟨?_, by decide, by decide, by decide⟩
  intro self sibs _ _ _
  unfold key
  rw [keyLoop_eq]

/-- Witness for C1 at the three concrete Smith records. -/
theorem c1_key_disambiguation_witness :
    (c1p1.authors_list ≠ [] ∧ (∃ p ∈ c1sibs, p.pid = c1p1.pid) ∧
      c1sibs.Pairwise (fun p q => p.month < q.month ∨ (p.month = q.month ∧ p.pid < q.pid))) ∧
    key c1p1 c1sibs = firstSurname c1p1 ++ Nat.toDigits 10 c1p1.year ++
      [Char.ofNat ('a'.toNat +
        ((c1sibs.takeWhile (fun p => !(p.pid == c1p1.pid))).filter
          (fun p => firstSurname p == firstSurname c1p1)).length)] :=
  ⟨⟨by decide, by decide, by decide⟩,
    c1_key_disambiguation.1 c1p1 c1sibs (by decide) (by decide) (by decide)⟩

/-- Claim C2 (counterexample): the input `" \x7bX\x7d"` has a trimmed form
that starts with `'\x7b'` and ends with `'\x7d'`, yet the pipeline does not
produce the single-element list of the literal interior `"X"` — the code
tests the raw, untrimmed string. -/
theorem c2_counterexample :
    pyStrip (strL " \x7bX\x7d") = strL "\x7bX\x7d" ∧
    (processAuthors (strL " \x7bX\x7d")).authors_list ≠ [strL "X"] := by
  decide

/-- Claim C2 (amended): for every input whose raw, untrimmed string starts
with `'\x7b'` and ends with `'\x7d'`, the author list is the single literal
interior and no further outputs are computed. -/
theorem c2_escape_literal (s : Str) (h : escaped s) :
    (processAuthors s).authors_list = [(s.drop 1).dropLast] ∧
    (processAuthors s).authors_list_simple = none ∧
    (processAuthors s).authors_bibtex = none := by
  unfold processAuthors
  rw [if_pos h]
  exact ⟨rfl, rfl, rfl⟩

/-- Witness for C2 at `"\x7bSpecial Group Name\x7d"`. -/
theorem c2_escape_literal_witness :
    escaped (strL "\x7bSpecial Group Name\x7d") ∧
    (processAuthors (strL "\x7bSpecial Group Name\x7d")).authors_list
      = [strL "Special Group Name"] :=
  ⟨by decide, by
    have h := c2_escape_literal (strL "\x7bSpecial Group Name\x7d") (by decide)
    simpa using h.1⟩

/-- The separator normalization in the order claim C3 states it: `';'`
replaced first, then the three and-patterns. -/
def sepNormalizeSpecC3 (s : Str) : Str :=
  replace (strL " and ") (strL ", ")
    (replace (strL ",and ") (strL ", ")
      (replace (strL ", and ") (strL ", ")
        (replace (strL ";") (strL ",") s)))

/-- The separator normalization in the amended order: the three and-patterns
in priority order, then `';'` replaced by `','` last. -/
def sepNormalizeAmendedC3 (s : Str) : Str :=
  replace (strL ";") (strL ",")
    (replace (strL " and ") (strL ", ")
      (replace (strL ",and ") (strL ", ")
        (replace (strL ", and ") (strL ", ") s)))

/-- Claim C3 (counterexample): on `"A; and B"` the order the claim states
(`';'` first) disagrees with the code, which replaces `';'` last and leaves
an empty middle author. -/
theorem c3_counterexample :
    sepNormalizeSpecC3 (strL "A; and B") ≠ sepNormalize (strL "A; and B") ∧
    sepNormalize (strL "A; and B") = strL "A,, B" ∧
    (processAuthors (strL "A; and B")).authors_list = [strL "A.", [], strL "B."] := by
  decide

/-- Claim C3 (amended): the code's separator normalization replaces
`", and "`, `",and "`, `" and "` by `", "` in that priority order (each one
left-to-right, non-overlapping pass) and only then replaces `';'` by `','`;
tokenization splits the result on `','`. -/
theorem c3_separator_order (s : Str) :
    sepNormalize s = sepNormalizeAmendedC3 s ∧
    (¬ escaped s → (processAuthors s).authors_list =
      ((splitOn ',' (sepNormalizeAmendedC3 s)).map pyStrip).map
        (fun t => (processToken t).1)) := by
  refine ⟨rfl, fun h => ?_⟩
  unfold processAuthors
  rw [if_neg h]
  simp [tokensOf, sepNormalizeAmendedC3, sepNormalize]

/-- Witness for C3 at `"A, B"`. -/
theorem c3_separator_order_witness :
    ¬ escaped (strL "A, B") ∧
    (processAuthors (strL "A, B")).authors_list =
      ((splitOn ',' (sepNormalizeAmendedC3 (strL "A, B"))).map pyStrip).map
        (fun t => (processToken t).1) :=
  ⟨by decide, (c3_separator_order (strL "A, B")).2 (by decide)⟩

/-- Claim C4 (counterexample): on `"A,,B"` the resulting authors list keeps
the empty entry produced by the consecutive separators. -/
theorem c4_counterexample :
    [] ∈ (processAuthors (strL "A,,B")).authors_list ∧
    (processAuthors (strL "A,,B")).authors_list = [strL "A.", [], strL "B."] := by
  decide

/-- Claim C4 (amended): empty tokens are skipped by the per-author
processing — they are left in place as empty entries of the authors list
(one entry per token) and contribute no simplified entries — not discarded. -/
theorem c4_empty_tokens_kept (s : Str) (h : ¬ escaped s) :
    (processAuthors s).authors_list.length = (tokensOf s).length ∧
    (processAuthors s).authors_list =
      (tokensOf s).map (fun t => if t = [] then [] else (processToken t).1) ∧
    (processAuthors s).authors_list_simple =
      some (List.flatten ((tokensOf s).map
        (fun t => if t = [] then [] else (processToken t).2))) := by
  unfold processAuthors
  rw [if_neg h]
  refine ⟨by simp, ?_, ?_⟩
  · simp only [List.map_map]
    refine List.map_congr_left (fun t _ => ?_)
    by_cases ht : t = []
    · subst ht; rfl
    · simp [Function.comp, processToken, ht]
  · simp only [List.map_map]
    congr 1
    congr 1
    refine List.map_congr_left (fun t _ => ?_)
    by_cases ht : t = []
    · subst ht; rfl
    · simp [Function.comp, processToken, ht]

/-- Witness for C4 at `"A,,B"`. -/
theorem c4_empty_tokens_kept_witness :
    ¬ escaped (strL "A,,B") ∧
    (processAuthors (strL "A,,B")).authors_list.length = (tokensOf (strL "A,,B")).length :=
  ⟨by decide, (c4_empty_tokens_kept (strL "A,,B") (by decide)).1⟩

/-- Claim C5: a final word of length at most 3, not in the suffix set, all
uppercase ASCII, is exploded into dotted initials prepended before the
remaining words; in particular `"Gauss CF"` displays as `"C. F. Gauss"`. -/
theorem c5_initials_detection :
    (∀ (names : List Str) (lastw : Str),
      names.getLast? = some lastw →
      lastw.length ≤ 3 →
      lastw ∉ suffixes →
      lastw.all isUpperAscii = true →
      initialsStep names = lastw.map (fun c => [c, '.']) ++ names.dropLast) ∧
    (processAuthors (strL "Gauss CF")).authors_list = [strL "C. F. Gauss"] := by
  refine ⟨?_, by decide⟩
  intro names lastw hlast h1 h2 h3
  simp only [initialsStep, hlast]
  have hc : suffixes.contains lastw = false := by
    simpa using h2
  have hb : (decide (lastw.length ≤ 3) && !(suffixes.contains lastw)
      && lastw.all isUpperAscii) = true := by
    rw [hc, h3]
    simpa using h1
  rw [if_pos hb]

/-- Witness for C5 at `["Gauss", "CF"]`. -/
theorem c5_initials_detection_witness :
    ([strL "Gauss", strL "CF"].getLast? = some (strL "CF") ∧
      (strL "CF").length ≤ 3 ∧ strL "CF" ∉ suffixes ∧
      (strL "CF").all isUpperAscii = true) ∧
    initialsStep [strL "Gauss", strL "CF"] =
      (strL "CF").map (fun c => [c, '.']) ++ [strL "Gauss", strL "CF"].dropLast :=
  ⟨⟨by decide, by decide, by decide, by decide⟩,
    c5_initials_detection.1 [strL "Gauss", strL "CF"] (strL "CF")
      (by decide) (by decide) (by decide) (by decide)⟩

/-- Claim C6: a word being abbreviated whose first dash sits at an interior
position becomes `first ++ ".-" ++ charAfterDash ++ "."`; the simplified
derivation splits the possibly-abbreviated first word on `'-'` and emits one
folded `"segment lastWord"` entry per segment; `"Jean-Paul Sartre"` gives
display `"J.-P. Sartre"` and simplified entries `"j. sartre"`, `"p. sartre"`. -/
theorem c6_dash_abbreviation :
    (∀ (w : Str) (k : Nat),
      (w.length > 2 || (!w.isEmpty && !(w.getLastD ' ' = '.'))) = true →
      w.indexOf '-' = k → 0 < k → k + 1 < w.length →
      abbrevWord w = [w.getD 0 ' ', '.', '-', w.getD (k + 1) ' ', '.']) ∧
    (∀ (names : List Str), names.length > 1 →
      simplesFor names = (splitOn '-' (names.headD [])).map
        (fun seg => simplifyName (seg ++ [' '] ++ names.getLastD []))) ∧
    (processAuthors (strL "Jean-Paul Sartre")).authors_list = [strL "J.-P. Sartre"] ∧
    (processAuthors (strL "Jean-Paul Sartre")).authors_list_simple =
      some [strL "j. sartre", strL "p. sartre"] := by
  refine ⟨?_, ?_, by decide, by decide⟩
  · intro w k hguard hk hkpos hklen
    unfold abbrevWord
    rw [if_pos hguard]
    simp only [hk]
    rw [if_pos hklen]
  · intro names hlen
    unfold simplesFor
    rw [if_pos hlen]

/-- Witness for C6 at `"Jean-Paul"` and `["J.-P.", "Sartre"]`. -/
theorem c6_dash_abbreviation_witness :
    (((strL "Jean-Paul").length > 2 ||
        (!(strL "Jean-Paul").isEmpty && !((strL "Jean-Paul").getLastD ' ' = '.'))) = true ∧
      (strL "Jean-Paul").indexOf '-' = 4 ∧ 0 < 4 ∧ 4 + 1 < (strL "Jean-Paul").length ∧
      ([strL "J.-P.", strL "Sartre"] : List Str).length > 1) ∧
    abbrevWord (strL "Jean-Paul") =
      [(strL "Jean-Paul").getD 0 ' ', '.', '-', (strL "Jean-Paul").getD 5 ' ', '.'] ∧
    simplesFor [strL "J.-P.", strL "Sartre"] =
      (splitOn '-' ([strL "J.-P.", strL "Sartre"].headD [])).map
        (fun seg => simplifyName (seg ++ [' '] ++ [strL "J.-P.", strL "Sartre"].getLastD [])) :=
  ⟨⟨by decide, by decide, by decide, by decide, by decide⟩,
    c6_dash_abbreviation.1 (strL "Jean-Paul") 4 (by decide) (by decide) (by decide) (by decide),
    c6_dash_abbreviation.2.1 [strL "J.-P.", strL "Sartre"] (by decide)⟩

/-- Claim C7: with three or more authors the display joins all but the last
with `", "` and appends `", and "` plus the last; two authors join with
`" and "`; one author stands alone; `"Alice Smith, Bob Jones, Carol Lee"`
rewrites to `"A. Smith, B. Jones, and C. Lee"`. -/
theorem c7_display_rewrite :
    (∀ (alist : List Str), 2 < alist.length →
      displayRewrite alist =
        pyJoin (strL ", ") alist.dropLast ++ strL ", and " ++ alist.getLastD []) ∧
    (∀ a b : Str, displayRewrite [a, b] = a ++ strL " and " ++ b) ∧
    (∀ a : Str, displayRewrite [a] = a) ∧
    (∀ s : Str, ¬ escaped s → (processAuthors s).authors =
      displayRewrite ((tokensOf s).map (fun t => (processToken t).1))) ∧
    (processAuthors (strL "Alice Smith, Bob Jones, Carol Lee")).authors =
      strL "A. Smith, B. Jones, and C. Lee" := by
  refine ⟨?_, ?_, ?_, ?_, by decide⟩
  · intro alist h
    unfold displayRewrite
    rw [if_pos h]
    simp [pyJoin, List.append_assoc]
  · intro a b; rfl
  · intro a; rfl
  · intro s h
    unfold processAuthors
    rw [if_neg h]
    simp [List.map_map]
    rfl

/-- Witness for C7 at the three-author example. -/
theorem c7_display_rewrite_witness :
    (2 < ([strL "A. Smith", strL "B. Jones", strL "C. Lee"] : List Str).length ∧
      ¬ escaped (strL "Alice Smith, Bob Jones, Carol Lee")) ∧
    displayRewrite [strL "A. Smith", strL "B. Jones", strL "C. Lee"] =
      pyJoin (strL ", ") ([strL "A. Smith", strL "B. Jones", strL "C. Lee"] : List Str).dropLast ++
        strL ", and " ++ ([strL "A. Smith", strL "B. Jones", strL "C. Lee"] : List Str).getLastD [] ∧
    (processAuthors (strL "Alice Smith, Bob Jones, Carol Lee")).authors =
      displayRewrite ((tokensOf (strL "Alice Smith, Bob Jones, Carol Lee")).map
        (fun t => (processToken t).1)) :=
  ⟨⟨by decide, by decide⟩,
    c7_display_rewrite.1 [strL "A. Smith", strL "B. Jones", strL "C. Lee"] (by decide),
    c7_display_rewrite.2.2.2.1 (strL "Alice Smith, Bob Jones, Carol Lee") (by decide)⟩

/-! ### Records for the letter-overflow claim -/

def c9self : Pub := { pid := 100, year := 2020, month := 2, authors_list := [strL "Z. Smith"] }

def c9sibs : List Pub :=
  (List.range 26).map
    (fun i => { pid := i + 1, year := 2020, month := 1, authors_list := [strL "A. Smith"] }) ++
  [c9self]

/-- Claim C9 (counterexample): with 26 same-year same-surname records before
the record itself, no fault is raised — `key` still returns a string, whose
final character has code 123, one past `'z'`. -/
theorem c9_counterexample :
    key c9self c9sibs = strL "Smith2020" ++ [Char.ofNat 123] ∧
    'z'.toNat < (Char.ofNat 123).toNat := by
  constructor
  · decide
  · decide

/-- Claim C9 (amended): the code has no overflow guard: with `n ≥ 26` earlier
same-surname siblings the key is still produced and ends in the character of
code `'a'.toNat + n`, which is beyond `'z'`. -/
theorem c9_no_overflow_guard (self : Pub) (sibs : List Pub)
    (h : 26 ≤ ((sibs.takeWhile (fun p => !(p.pid == self.pid))).filter
      (fun p => firstSurname p == firstSurname self)).length) :
    (key self sibs).getLast? =
      some (Char.ofNat ('a'.toNat +
        ((sibs.takeWhile (fun p => !(p.pid == self.pid))).filter
          (fun p => firstSurname p == firstSurname self)).length)) ∧
    'z'.toNat < 'a'.toNat +
      ((sibs.takeWhile (fun p => !(p.pid == self.pid))).filter
        (fun p => firstSurname p == firstSurname self)).length := by
  constructor
  · unfold key
    rw [keyLoop_eq, List.getLast?_concat]
  · have ha : 'a'.toNat = 97 := rfl
    have hz : 'z'.toNat = 122 := rfl
    omega

/-- Witness for C9 at the 27-record configuration. -/
theorem c9_no_overflow_guard_witness :
    26 ≤ ((c9sibs.takeWhile (fun p => !(p.pid == c9self.pid))).filter
      (fun p => firstSurname p == firstSurname c9self)).length ∧
    (key c9self c9sibs).getLast? =
      some (Char.ofNat ('a'.toNat +
        ((c9sibs.takeWhile (fun p => !(p.pid == c9self.pid))).filter
          (fun p => firstSurname p == firstSurname c9self)).length)) :=
  ⟨by decide, (c9_no_overflow_guard c9self c9sibs (by decide)).1⟩

/-- Claim C10: for a brace-escaped input the persisted authors string is the
original input, braces included — the display rewrite does not run. -/
theorem c10_escape_authors_unchanged (s : Str) (h : escaped s) :
    (processAuthors s).authors = s := by
  unfold processAuthors
  rw [if_pos h]

/-- Witness for C10 at `"\x7bSpecial Group Name\x7d"`. -/
theorem c10_escape_authors_unchanged_witness :
    escaped (strL "\x7bSpecial Group Name\x7d") ∧
    (processAuthors (strL "\x7bSpecial Group Name\x7d")).authors =
      strL "\x7bSpecial Group Name\x7d" :=
  ⟨by decide, c10_escape_authors_unchanged (strL "\x7bSpecial Group Name\x7d") (by decide)⟩

/-! ### Occurrence machinery for `replace` (toward the idempotence claim) -/

theorem infx_of_pfx {pat s : Str} (h : pat <+: s) : pat <:+: s := by
  obtain ⟨r, hr⟩ := h
  exact ⟨[], r, by simpa using hr⟩

/-- If a nonempty pattern never occurs in `s`, the replace pass is the
identity. -/
theorem replace_eq_self {pat : Str} (rep : Str) :
    ∀ s : Str, pat ≠ [] → ¬ pat <:+: s → replace pat rep s = s := by
  intro s
  induction s with
  | nil => intro _ _; rfl
  | cons c cs ih =>
    intro hne hni
    have hnp : ¬ (pat ≠ [] ∧ pat.isPrefixOf (c :: cs)) := by
      rintro ⟨_, hp⟩
      exact hni (infx_of_pfx (List.isPrefixOf_iff_prefix.mp hp))
    rw [replace_cons_neg rep hnp]
    rw [ih hne (fun hx => hni (List.infix_cons hx))]

/-- A match of `pat` that starts strictly inside `l` lies inside
`(l ++ pat).dropLast`. -/
theorem pfx_dropLast {pat l r : Str} (hl : l ≠ []) (h : pat <+: l ++ pat ++ r) :
    pat <+: (l ++ pat).dropLast := by
  have hlp : l ++ pat ≠ [] := by simp [hl]
  have hsplit : (l ++ pat).dropLast ++ [(l ++ pat).getLast hlp] = l ++ pat :=
    List.dropLast_append_getLast hlp
  have h0 : 0 < l.length := List.length_pos.mpr hl
  have hlen : pat.length ≤ ((l ++ pat).dropLast).length := by
    simp only [List.length_dropLast, List.length_append]
    omega
  apply List.prefix_iff_eq_take.mpr
  calc pat = (l ++ pat ++ r).take pat.length := List.prefix_iff_eq_take.mp h
    _ = (((l ++ pat).dropLast ++ [(l ++ pat).getLast hlp]) ++ r).take pat.length := by
        rw [hsplit]
    _ = ((l ++ pat).dropLast ++ ([(l ++ pat).getLast hlp] ++ r)).take pat.length := by
        rw [List.append_assoc]
    _ = ((l ++ pat).dropLast).take pat.length := List.take_append_of_le_length hlen

/-- Replacing past a region `l` that contains no match start: the first
occurrence of the pattern is the explicit one after `l`. -/
theorem replace_skip {pat : Str} (rep : Str) :
    ∀ (l r : Str), pat ≠ [] → ¬ pat <:+: (l ++ pat).dropLast →
      replace pat rep (l ++ pat ++ r) = l ++ rep ++ replace pat rep r := by
  intro l
  induction l with
  | nil =>
    intro r hne _
    simp only [List.nil_append]
    have hp : pat.isPrefixOf (pat ++ r) :=
      List.isPrefixOf_iff_prefix.mpr (List.prefix_append pat r)
    cases pat with
    | nil => exact absurd rfl hne
    | cons p ps =>
      rw [show (p :: ps) ++ r = p :: (ps ++ r) from rfl] at hp ⊢
      rw [replace_cons_pos rep hne hp]
      rw [show (p :: (ps ++ r)) = (p :: ps) ++ r from rfl, List.drop_left]
  | cons x l' ih =>
    intro r hne hni
    have hmain : ¬ (pat ≠ [] ∧ pat.isPrefixOf (x :: (l' ++ pat ++ r))) := by
      rintro ⟨_, hp⟩
      have hpp : pat <+: (x :: l') ++ pat ++ r := List.isPrefixOf_iff_prefix.mp hp
      exact hni (infx_of_pfx (pfx_dropLast (by simp) hpp))
    rw [show (x :: l') ++ pat ++ r = x :: (l' ++ pat ++ r) from rfl]
    rw [replace_cons_neg rep hmain]
    have hni' : ¬ pat <:+: (l' ++ pat).dropLast := by
      intro hx
      apply hni
      have hlp : l' ++ pat ≠ [] := by simp [hne]
      obtain ⟨y, ys, hys⟩ := List.exists_cons_of_ne_nil hlp
      rw [show (x :: l') ++ pat = x :: (l' ++ pat) from rfl, hys]
      rw [List.dropLast_cons₂]
      rw [hys] at hx
      exact List.infix_cons hx
    rw [ih r hne hni']
    rfl

/-! ### Safe word structure: strings in which the separator patterns cannot
occur except where placed explicitly -/

/-- ASCII letter. -/
def isAsciiLetter (c : Char) : Bool := ('A' ≤ c && c ≤ 'Z') || ('a' ≤ c && c ≤ 'z')

/-- Characters that may appear inside an already-abbreviated author word:
ASCII letters and the dot. -/
def isSafeChar (c : Char) : Bool := isAsciiLetter c || c = '.'

/-- A word of safe characters that is not the word `"and"`. -/
def goodWord (w : Str) : Prop :=
  w ≠ [] ∧ (∀ c ∈ w, isSafeChar c = true) ∧ w ≠ strL "and"

/-- Strings built from good words joined by the separators `" "` and
`", "`, possibly ending in a bare final `"and"` (as in the tail of the
display separator `", and"`). -/
inductive SafeTail : Str → Prop
  | nil : SafeTail []
  | solo (w : Str) : goodWord w → SafeTail w
  | andEnd : SafeTail (strL "and")
  | step (w sep t : Str) : goodWord w → (sep = strL " " ∨ sep = strL ", ") →
      SafeTail t → SafeTail (w ++ (sep ++ t))

/-- In a safe tail no word boundary starts `"and "`: the word `"and"` is
excluded and word characters cannot be spaces. -/
theorem safeTail_no_and : ∀ {t : Str}, SafeTail t → ¬ (strL "and ") <+: t := by
  intro t h
  induction h with
  | nil =>
    intro hp
    rw [List.prefix_nil] at hp
    exact absurd hp (by decide)
  | solo w hw =>
    intro hp
    obtain ⟨r, hr⟩ := hp
    have hsp : ' ' ∈ w := by
      rw [← hr]
      simp [strL]
    have := hw.2.1 ' ' hsp
    exact absurd this (by decide)
  | andEnd =>
    intro hp
    have := hp.length_le
    revert this
    decide
  | step w sep t hw hsep ht ih =>
    intro hp
    obtain ⟨hne, hsafe, hand⟩ := hw
    cases w with
    | nil => exact hne rfl
    | cons a w1 =>
      rw [show strL "and " = 'a' :: 'n' :: 'd' :: [' '] from rfl] at hp
      rw [show (a :: w1) ++ (sep ++ t) = a :: (w1 ++ (sep ++ t)) from rfl] at hp
      rw [List.cons_prefix_cons] at hp
      obtain ⟨ha, hp⟩ := hp
      cases w1 with
      | nil =>
        simp only [List.nil_append] at hp
        rcases hsep with h | h <;> rw [h] at hp
        · rw [show (strL " " ++ t) = ' ' :: t from rfl, List.cons_prefix_cons] at hp
          exact absurd hp.1 (by decide)
        · rw [show (strL ", " ++ t) = ',' :: ' ' :: t from rfl, List.cons_prefix_cons] at hp
          exact absurd hp.1 (by decide)
      | cons b w2 =>
        rw [show (b :: w2) ++ (sep ++ t) = b :: (w2 ++ (sep ++ t)) from rfl] at hp
        rw [List.cons_prefix_cons] at hp
        obtain ⟨hb, hp⟩ := hp
        cases w2 with
        | nil =>
          simp only [List.nil_append] at hp
          rcases hsep with h | h <;> rw [h] at hp
          · rw [show (strL " " ++ t) = ' ' :: t from rfl, List.cons_prefix_cons] at hp
            exact absurd hp.1 (by decide)
          · rw [show (strL ", " ++ t) = ',' :: ' ' :: t from rfl, List.cons_prefix_cons] at hp
            exact absurd hp.1 (by decide)
        | cons c w3 =>
          rw [show (c :: w3) ++ (sep ++ t) = c :: (w3 ++ (sep ++ t)) from rfl] at hp
          rw [List.cons_prefix_cons] at hp
          obtain ⟨hc, hp⟩ := hp
          cases w3 with
          | nil =>
            apply hand
            rw [← ha, ← hb, ← hc]
            rfl
          | cons d w4 =>
            rw [show (d :: w4) ++ (sep ++ t) = d :: (w4 ++ (sep ++ t)) from rfl] at hp
            rw [List.cons_prefix_cons] at hp
            have hd : isSafeChar d = true := hsafe d (by simp)
            rw [← hp.1] at hd
            exact absurd hd (by decide)

/-- A pattern starting with an unsafe character cannot start inside a block
of safe characters. -/
theorem infx_skip_safe (p₀ : Char) (pt : Str) (hp₀ : isSafeChar p₀ = false) :
    ∀ (w X : Str), (∀ c ∈ w, isSafeChar c = true) →
      (p₀ :: pt) <:+: (w ++ X) → (p₀ :: pt) <:+: X := by
  intro w
  induction w with
  | nil => intro X _ h; simpa using h
  | cons a w' ih =>
    intro X hsafe h
    rw [List.cons_append, List.infix_cons_iff] at h
    cases h with
    | inl hp =>
      rw [List.cons_prefix_cons] at hp
      have ha := hsafe a (by simp)
      rw [← hp.1, hp₀] at ha
      exact absurd ha (by decide)
    | inr hi => exact ih X (fun c hc => hsafe c (by simp [hc])) hi

/-- None of the four separator patterns is a prefix of `' ' :: t` for a safe
tail `t`. -/
theorem pats_not_at_space {t : Str} (ht : SafeTail t) :
    ¬ (strL " and ") <+: (' ' :: t) ∧ ¬ (strL ", and ") <+: (' ' :: t) ∧
    ¬ (strL ",and ") <+: (' ' :: t) ∧ ¬ (strL ";") <+: (' ' :: t) := by
  refine ⟨?_, ?_, ?_, ?_⟩
  · intro hp
    rw [show strL " and " = ' ' :: strL "and " from rfl, List.cons_prefix_cons] at hp
    exact safeTail_no_and ht hp.2
  · intro hp
    rw [show strL ", and " = ',' :: strL " and " from rfl, List.cons_prefix_cons] at hp
    exact absurd hp.1 (by decide)
  · intro hp
    rw [show strL ",and " = ',' :: strL "and " from rfl, List.cons_prefix_cons] at hp
    exact absurd hp.1 (by decide)
  · intro hp
    rw [show strL ";" = ';' :: ([] : Str) from rfl, List.cons_prefix_cons] at hp
    exact absurd hp.1 (by decide)

/-- None of the four separator patterns occurs anywhere in a safe tail. -/
theorem safeTail_no_pat : ∀ {t : Str}, SafeTail t →
    ¬ (strL " and ") <:+: t ∧ ¬ (strL ", and ") <:+: t ∧
    ¬ (strL ",and ") <:+: t ∧ ¬ (strL ";") <:+: t := by
  intro t h
  induction h with
  | nil =>
    refine ⟨?_, ?_, ?_, ?_⟩ <;>
      · intro hx
        rw [List.infix_nil] at hx
        exact absurd hx (by decide)
  | solo w hw =>
    have hskip : ∀ (p₀ : Char) (pt : Str), isSafeChar p₀ = false →
        ¬ (p₀ :: pt) <:+: w := by
      intro p₀ pt hp₀ hx
      have hx' : (p₀ :: pt) <:+: (w ++ []) := by simpa using hx
      have h0 := infx_skip_safe p₀ pt hp₀ w [] hw.2.1 hx'
      rw [List.infix_nil] at h0
      exact absurd h0 (by simp)
    exact ⟨hskip ' ' (strL "and ") (by decide),
           hskip ',' (strL " and ") (by decide),
           hskip ',' (strL "and ") (by decide),
           hskip ';' [] (by decide)⟩
  | andEnd =>
    have hsafe : ∀ c ∈ strL "and", isSafeChar c = true := by decide
    have hskip : ∀ (p₀ : Char) (pt : Str), isSafeChar p₀ = false →
        ¬ (p₀ :: pt) <:+: strL "and" := by
      intro p₀ pt hp₀ hx
      have hx' : (p₀ :: pt) <:+: (strL "and" ++ []) := by simpa using hx
      have h0 := infx_skip_safe p₀ pt hp₀ (strL "and") [] hsafe hx'
      rw [List.infix_nil] at h0
      exact absurd h0 (by simp)
    exact ⟨hskip ' ' (strL "and ") (by decide),
           hskip ',' (strL " and ") (by decide),
           hskip ',' (strL "and ") (by decide),
           hskip ';' [] (by decide)⟩
  | step w sep t hw hsep ht ih =>
    have hsk : ∀ (p₀ : Char) (pt : Str), isSafeChar p₀ = false →
        (p₀ :: pt) <:+: (w ++ (sep ++ t)) → (p₀ :: pt) <:+: (sep ++ t) :=
      fun p₀ pt hp₀ hx => infx_skip_safe p₀ pt hp₀ w (sep ++ t) hw.2.1 hx
    have hspace := pats_not_at_space ht
    rcases hsep with hs | hs <;> subst hs
    · refine ⟨?_, ?_, ?_, ?_⟩
      · intro hx
        have h1 := hsk ' ' (strL "and ") (by decide)
          (by rw [show (' ' :: strL "and ") = strL " and " from rfl]; exact hx)
        rw [show (strL " " ++ t) = ' ' :: t from rfl, List.infix_cons_iff] at h1
        rcases h1 with h1 | h1
        · rw [show (' ' :: strL "and ") = strL " and " from rfl] at h1
          exact hspace.1 h1
        · exact ih.1 h1
      · intro hx
        have h1 := hsk ',' (strL " and ") (by decide)
          (by rw [show (',' :: strL " and ") = strL ", and " from rfl]; exact hx)
        rw [show (strL " " ++ t) = ' ' :: t from rfl, List.infix_cons_iff] at h1
        rcases h1 with h1 | h1
        · rw [show (',' :: strL " and ") = strL ", and " from rfl] at h1
          exact hspace.2.1 h1
        · exact ih.2.1 h1
      · intro hx
        have h1 := hsk ',' (strL "and ") (by decide)
          (by rw [show (',' :: strL "and ") = strL ",and " from rfl]; exact hx)
        rw [show (strL " " ++ t) = ' ' :: t from rfl, List.infix_cons_iff] at h1
        rcases h1 with h1 | h1
        · rw [show (',' :: strL "and ") = strL ",and " from rfl] at h1
          exact hspace.2.2.1 h1
        · exact ih.2.2.1 h1
      · intro hx
        have h1 := hsk ';' [] (by decide)
          (by rw [show (';' :: ([] : Str)) = strL ";" from rfl]; exact hx)
        rw [show (strL " " ++ t) = ' ' :: t from rfl, List.infix_cons_iff] at h1
        rcases h1 with h1 | h1
        · rw [show (';' :: ([] : Str)) = strL ";" from rfl] at h1
          exact hspace.2.2.2 h1
        · exact ih.2.2.2 h1
    · refine ⟨?_, ?_, ?_, ?_⟩
      · intro hx
        have h1 := hsk ' ' (strL "and ") (by decide)
          (by rw [show (' ' :: strL "and ") = strL " and " from rfl]; exact hx)
        rw [show (strL ", " ++ t) = ',' :: ' ' :: t from rfl, List.infix_cons_iff] at h1
        rcases h1 with h1 | h1
        · rw [List.cons_prefix_cons] at h1
          exact absurd h1.1 (by decide)
        · rw [List.infix_cons_iff] at h1
          rcases h1 with h1 | h1
          · rw [show (' ' :: strL "and ") = strL " and " from rfl] at h1
            exact hspace.1 h1
          · exact ih.1 h1
      · intro hx
        have h1 := hsk ',' (strL " and ") (by decide)
          (by rw [show (',' :: strL " and ") = strL ", and " from rfl]; exact hx)
        rw [show (strL ", " ++ t) = ',' :: ' ' :: t from rfl, List.infix_cons_iff] at h1
        rcases h1 with h1 | h1
        · rw [List.cons_prefix_cons] at h1
          have h2 := h1.2
          rw [show strL " and " = ' ' :: strL "and " from rfl, List.cons_prefix_cons] at h2
          exact safeTail_no_and ht h2.2
        · rw [List.infix_cons_iff] at h1
          rcases h1 with h1 | h1
          · rw [List.cons_prefix_cons] at h1
            exact absurd h1.1 (by decide)
          · exact ih.2.1 h1
      · intro hx
        have h1 := hsk ',' (strL "and ") (by decide)
          (by rw [show (',' :: strL "and ") = strL ",and " from rfl]; exact hx)
        rw [show (strL ", " ++ t) = ',' :: ' ' :: t from rfl, List.infix_cons_iff] at h1
        rcases h1 with h1 | h1
        · rw [List.cons_prefix_cons] at h1
          have h2 := h1.2
          rw [show strL "and " = 'a' :: strL "nd " from rfl, List.cons_prefix_cons] at h2
          exact absurd h2.1 (by decide)
        · rw [List.infix_cons_iff] at h1
          rcases h1 with h1 | h1
          · rw [List.cons_prefix_cons] at h1
            exact absurd h1.1 (by decide)
          · exact ih.2.2.1 h1
      · intro hx
        have h1 := hsk ';' [] (by decide)
          (by rw [show (';' :: ([] : Str)) = strL ";" from rfl]; exact hx)
        rw [show (strL ", " ++ t) = ',' :: ' ' :: t from rfl, List.infix_cons_iff] at h1
        rcases h1 with h1 | h1
        · rw [List.cons_prefix_cons] at h1
          exact absurd h1.1 (by decide)
        · rw [List.infix_cons_iff] at h1
          rcases h1 with h1 | h1
          · rw [List.cons_prefix_cons] at h1
            exact absurd h1.1 (by decide)
          · exact ih.2.2.2 h1

/-! ### pyJoin, splitOn and pyStrip facts -/

theorem getLastD_irrel {α : Type} {l : List α} (h : l ≠ []) (d d' : α) :
    l.getLastD d = l.getLastD d' := by
  cases l with
  | nil => exact absurd rfl h
  | cons c cs =>
    rw [List.getLastD_eq_getLast?, List.getLastD_eq_getLast?]
    cases hx : (c :: cs).getLast? with
    | none => exact absurd (List.getLast?_eq_none_iff.mp hx) h
    | some a => rfl

theorem getLast?_app {l₁ l₂ : Str} (h : l₂ ≠ []) : (l₁ ++ l₂).getLast? = l₂.getLast? := by
  rw [List.getLast?_append]
  cases hx : l₂.getLast? with
  | none => exact absurd (List.getLast?_eq_none_iff.mp hx) h
  | some a => rfl

theorem pyJoin_ne_nil (sep : Str) (w : Str) (ws : List Str) (hw : w ≠ []) :
    pyJoin sep (w :: ws) ≠ [] := by
  cases ws with
  | nil => simpa [pyJoin] using hw
  | cons y ys =>
    cases w with
    | nil => exact absurd rfl hw
    | cons c cs => simp [pyJoin]

theorem pyJoin_concat (sep : Str) : ∀ (ps : List Str) (q : Str), ps ≠ [] →
    pyJoin sep (ps ++ [q]) = pyJoin sep ps ++ sep ++ q := by
  intro ps
  induction ps with
  | nil => intro q h; exact absurd rfl h
  | cons p ps' ih =>
    intro q _
    cases ps' with
    | nil => rfl
    | cons r rs =>
      simp only [List.cons_append, List.append_eq, pyJoin]
      have ihq := ih q (by simp)
      rw [List.cons_append] at ihq
      rw [ihq]
      simp [List.append_assoc]

theorem mem_pyJoin (sep : Str) (c : Char) : ∀ (ws : List Str),
    c ∈ pyJoin sep ws → c ∈ sep ∨ ∃ w ∈ ws, c ∈ w := by
  intro ws
  induction ws with
  | nil => intro h; simp [pyJoin] at h
  | cons w ws' ih =>
    intro h
    cases ws' with
    | nil =>
      right
      exact ⟨w, by simp, by simpa [pyJoin] using h⟩
    | cons y ys =>
      simp only [pyJoin, List.mem_append] at h
      rcases h with (h | h) | h
      · right; exact ⟨w, by simp, h⟩
      · left; exact h
      · rcases ih h with h' | ⟨w', hw', hc⟩
        · left; exact h'
        · right; exact ⟨w', by simp [hw'], hc⟩

theorem pyJoin_getLast (sep : Str) : ∀ (ws : List Str), ws ≠ [] → (∀ w ∈ ws, w ≠ []) →
    (pyJoin sep ws).getLast? = (ws.getLastD []).getLast? := by
  intro ws
  induction ws with
  | nil => intro h; exact absurd rfl h
  | cons w ws' ih =>
    intro _ hall
    cases ws' with
    | nil => simp [pyJoin]
    | cons y ys =>
      have hJ : pyJoin sep (y :: ys) ≠ [] := pyJoin_ne_nil sep y ys (hall y (by simp))
      simp only [pyJoin]
      rw [List.append_assoc, getLast?_app (by simp [hJ]), getLast?_app hJ]
      rw [ih (by simp) (fun u hu => hall u (by simp [hu]))]
      have e2 : (w :: y :: ys).getLastD ([] : Str) = (y :: ys).getLastD ([] : Str) := by
        rw [List.getLastD_cons]
        exact getLastD_irrel (by simp) w []
      rw [e2]

theorem pyJoin_headD (sep : Str) (d : Char) : ∀ (ws : List Str) (w : Str), w ≠ [] →
    (pyJoin sep (w :: ws)).headD d = w.headD d := by
  intro ws w hw
  obtain ⟨c, cs, rfl⟩ := List.exists_cons_of_ne_nil hw
  cases ws with
  | nil => rfl
  | cons y ys => rfl

/-! ### SafeTail builders -/

theorem safeTail_words_tail : ∀ (ws : List Str), (∀ w ∈ ws, goodWord w) → ws ≠ [] →
    ∀ (sep : Str), (sep = strL " " ∨ sep = strL ", ") →
    ∀ (t : Str), SafeTail t → SafeTail (pyJoin [' '] ws ++ (sep ++ t)) := by
  intro ws
  induction ws with
  | nil => intro _ h; exact absurd rfl h
  | cons w ws' ih =>
    intro hgood _ sep hsep t ht
    cases ws' with
    | nil => exact SafeTail.step w sep t (hgood w (by simp)) hsep ht
    | cons y ys =>
      have hJ : SafeTail (pyJoin [' '] (y :: ys) ++ (sep ++ t)) :=
        ih (fun u hu => hgood u (by simp [hu])) (by simp) sep hsep t ht
      have hstep := SafeTail.step w (strL " ") (pyJoin [' '] (y :: ys) ++ (sep ++ t))
        (hgood w (by simp)) (Or.inl rfl) hJ
      have e : w ++ (strL " " ++ (pyJoin [' '] (y :: ys) ++ (sep ++ t)))
          = pyJoin [' '] (w :: y :: ys) ++ (sep ++ t) := by
        simp only [pyJoin, List.append_assoc]
        rfl
      rw [e] at hstep
      exact hstep

theorem safeTail_words : ∀ (ws : List Str), (∀ w ∈ ws, goodWord w) → ws ≠ [] →
    SafeTail (pyJoin [' '] ws) := by
  intro ws
  induction ws with
  | nil => intro _ h; exact absurd rfl h
  | cons w ws' ih =>
    intro hgood _
    cases ws' with
    | nil => exact SafeTail.solo w (hgood w (by simp))
    | cons y ys =>
      have hJ : SafeTail (pyJoin [' '] (y :: ys)) :=
        ih (fun u hu => hgood u (by simp [hu])) (by simp)
      have hstep := SafeTail.step w (strL " ") (pyJoin [' '] (y :: ys))
        (hgood w (by simp)) (Or.inl rfl) hJ
      have e : w ++ (strL " " ++ pyJoin [' '] (y :: ys)) = pyJoin [' '] (w :: y :: ys) := by
        simp only [pyJoin, List.append_assoc]
        rfl
      rw [e] at hstep
      exact hstep

/-- A display part: the space-join of a nonempty list of good words. -/
def goodPart (p : Str) : Prop :=
  ∃ ws : List Str, ws ≠ [] ∧ (∀ w ∈ ws, goodWord w) ∧ p = pyJoin [' '] ws

theorem safeTail_parts_tail : ∀ (ps : List Str), (∀ p ∈ ps, goodPart p) → ps ≠ [] →
    ∀ (t : Str), SafeTail t → SafeTail (pyJoin (strL ", ") ps ++ (strL ", " ++ t)) := by
  intro ps
  induction ps with
  | nil => intro _ h; exact absurd rfl h
  | cons p ps' ih =>
    intro hgood _ t ht
    obtain ⟨ws, hwne, hwgood, rfl⟩ := hgood p (by simp)
    cases ps' with
    | nil => exact safeTail_words_tail ws hwgood hwne (strL ", ") (Or.inr rfl) t ht
    | cons q qs =>
      have hJ : SafeTail (pyJoin (strL ", ") (q :: qs) ++ (strL ", " ++ t)) :=
        ih (fun u hu => hgood u (by simp [hu])) (by simp) t ht
      have hstep := safeTail_words_tail ws hwgood hwne (strL ", ") (Or.inr rfl)
        (pyJoin (strL ", ") (q :: qs) ++ (strL ", " ++ t)) hJ
      have e : pyJoin [' '] ws ++ (strL ", " ++ (pyJoin (strL ", ") (q :: qs) ++ (strL ", " ++ t)))
          = pyJoin (strL ", ") (pyJoin [' '] ws :: q :: qs) ++ (strL ", " ++ t) := by
        simp only [pyJoin, List.append_assoc]
      rw [e] at hstep
      exact hstep

theorem safeTail_parts : ∀ (ps : List Str), (∀ p ∈ ps, goodPart p) → ps ≠ [] →
    SafeTail (pyJoin (strL ", ") ps) := by
  intro ps
  induction ps with
  | nil => intro _ h; exact absurd rfl h
  | cons p ps' ih =>
    intro hgood _
    obtain ⟨ws, hwne, hwgood, rfl⟩ := hgood p (by simp)
    cases ps' with
    | nil => exact safeTail_words ws hwgood hwne
    | cons q qs =>
      have hJ : SafeTail (pyJoin (strL ", ") (q :: qs)) :=
        ih (fun u hu => hgood u (by simp [hu])) (by simp)
      have hstep := safeTail_words_tail ws hwgood hwne (strL ", ") (Or.inr rfl)
        (pyJoin (strL ", ") (q :: qs)) hJ
      have e : pyJoin [' '] ws ++ (strL ", " ++ pyJoin (strL ", ") (q :: qs))
          = pyJoin (strL ", ") (pyJoin [' '] ws :: q :: qs) := by
        simp only [pyJoin, List.append_assoc]
      rw [e] at hstep
      exact hstep

/-! ### splitOn computation lemmas -/

theorem splitOn_ne_nil (sep : Char) : ∀ (s : Str), splitOn sep s ≠ [] := by
  intro s
  induction s with
  | nil => simp [splitOn]
  | cons c cs ih =>
    by_cases hc : c = sep
    · simp [splitOn, hc]
    · simp only [splitOn, if_neg hc]
      cases hsp : splitOn sep cs with
      | nil => simp
      | cons t ts => simp

theorem splitOn_sep_cons (sep : Char) (cs : Str) :
    splitOn sep (sep :: cs) = [] :: splitOn sep cs := by
  simp [splitOn]

theorem splitOn_ne_cons {c sep : Char} (h : c ≠ sep) (cs : Str) :
    splitOn sep (c :: cs) = (c :: (splitOn sep cs).headD []) :: (splitOn sep cs).tail := by
  simp only [splitOn, if_neg h]
  cases hsp : splitOn sep cs with
  | nil => exact absurd hsp (splitOn_ne_nil sep cs)
  | cons t ts => simp

theorem splitOn_app {sep : Char} : ∀ (p : Str), (∀ c ∈ p, c ≠ sep) → ∀ (r : Str),
    splitOn sep (p ++ r) = (p ++ (splitOn sep r).headD []) :: (splitOn sep r).tail := by
  intro p
  induction p with
  | nil =>
    intro _ r
    simp only [List.nil_append]
    cases hsp : splitOn sep r with
    | nil => exact absurd hsp (splitOn_ne_nil sep r)
    | cons t ts => simp
  | cons c p' ih =>
    intro hc r
    rw [List.cons_append, splitOn_ne_cons (hc c (by simp)) _]
    rw [ih (fun d hd => hc d (by simp [hd])) r]
    simp

theorem splitOn_no_sep {sep : Char} (p : Str) (h : ∀ c ∈ p, c ≠ sep) :
    splitOn sep p = [p] := by
  have := splitOn_app p h []
  rw [List.append_nil] at this
  simpa [splitOn] using this

theorem splitOn_parts : ∀ (ps : List Str), ps ≠ [] → (∀ p ∈ ps, ∀ c ∈ p, c ≠ ',') →
    splitOn ',' (pyJoin (strL ", ") ps) =
      ps.headD [] :: (ps.tail.map (fun p => ' ' :: p)) := by
  intro ps
  induction ps with
  | nil => intro h; exact absurd rfl h
  | cons p ps' ih =>
    intro _ hp
    cases ps' with
    | nil =>
      show splitOn ',' p = _
      rw [splitOn_no_sep p (hp p (by simp))]
      simp
    | cons q qs =>
      have e : pyJoin (strL ", ") (p :: q :: qs)
          = p ++ (',' :: ' ' :: pyJoin (strL ", ") (q :: qs)) := by
        simp only [pyJoin, List.append_assoc]
        rfl
      rw [e, splitOn_app p (hp p (by simp))]
      rw [splitOn_sep_cons]
      rw [splitOn_ne_cons (by decide)]
      rw [ih (by simp) (fun u hu c hc => hp u (by simp [hu]) c hc)]
      simp

/-! ### pyStrip computation lemmas -/

theorem revDrop_eq {p : Str} (hne : p ≠ []) (hl : isPySpace (p.getLastD ' ') = false) :
    (p.reverse.dropWhile isPySpace).reverse = p := by
  have hrne : p.reverse ≠ [] := by simpa using hne
  obtain ⟨e, es, hees⟩ := List.exists_cons_of_ne_nil hrne
  have he : isPySpace e = false := by
    have h1 : p.reverse.head? = some e := by rw [hees]; rfl
    have h2 : p.getLast? = some e := by rw [← List.head?_reverse]; exact h1
    have h3 : p.getLastD ' ' = e := by
      cases p with
      | nil => exact absurd rfl hne
      | cons a as => rw [List.getLastD_eq_getLast?, h2]; rfl
    rw [← h3]
    exact hl
  rw [hees, List.dropWhile_cons, if_neg (by simp [he]), ← hees, List.reverse_reverse]

theorem pyStrip_no_space {p : Str} (hne : p ≠ [])
    (hh : isPySpace (p.headD ' ') = false) (hl : isPySpace (p.getLastD ' ') = false) :
    pyStrip p = p := by
  obtain ⟨c, cs, rfl⟩ := List.exists_cons_of_ne_nil hne
  unfold pyStrip
  rw [List.dropWhile_cons, if_neg (by simpa using hh)]
  exact revDrop_eq hne hl

theorem pyStrip_space_cons {p : Str} (hne : p ≠ [])
    (hh : isPySpace (p.headD ' ') = false) (hl : isPySpace (p.getLastD ' ') = false) :
    pyStrip (' ' :: p) = p := by
  obtain ⟨c, cs, rfl⟩ := List.exists_cons_of_ne_nil hne
  unfold pyStrip
  rw [List.dropWhile_cons, if_pos (by decide)]
  rw [List.dropWhile_cons, if_neg (by simpa using hh)]
  exact revDrop_eq hne hl

/-! ### Per-token roundtrip for already-abbreviated authors -/

/-- An already-abbreviated author: uppercase initials and a surname that is
alphabetic, not all-uppercase-short (so the initials heuristic cannot fire),
not a suffix word and not the word `"and"`. -/
def goodAuthor (a : List Char × Str) : Prop :=
  (∀ c ∈ a.1, isUpperAscii c = true) ∧
  a.2 ≠ [] ∧
  (∀ c ∈ a.2, isAsciiLetter c = true) ∧
  ¬ (a.2.length ≤ 3 ∧ ∀ c ∈ a.2, isUpperAscii c = true) ∧
  a.2 ∉ suffixes ∧
  a.2 ≠ strL "and"

/-- The word list of an already-abbreviated author: dotted initials then the
surname. -/
def authorWords (a : List Char × Str) : List Str :=
  (a.1.map (fun c => [c, '.'])) ++ [a.2]

/-- The rendered display form of an already-abbreviated author. -/
def renderAuthor (a : List Char × Str) : Str := pyJoin [' '] (authorWords a)

theorem safe_of_upper {c : Char} (h : isUpperAscii c = true) : isSafeChar c = true := by
  unfold isSafeChar isAsciiLetter
  unfold isUpperAscii at h
  rw [h]
  rfl

theorem safe_of_letter {c : Char} (h : isAsciiLetter c = true) : isSafeChar c = true := by
  unfold isSafeChar
  rw [h]
  rfl

theorem goodWord_initial {c : Char} (h : isUpperAscii c = true) : goodWord [c, '.'] := by
  refine ⟨by simp, ?_, ?_⟩
  · intro d hd
    rcases List.mem_cons.mp hd with rfl | hd'
    · exact safe_of_upper h
    · rcases List.mem_singleton.mp hd' with rfl
      decide
  · intro he
    have h2 : (2 : Nat) = 3 := congrArg List.length he
    exact absurd h2 (by decide)

theorem contains_false_of_not_mem {l : List Str} {w : Str} (h : w ∉ l) :
    l.contains w = false := by
  cases hx : l.contains w with
  | false => rfl
  | true => exact absurd (List.elem_iff.mp hx) h

theorem initial_not_mem_prefixes (c : Char) : ([c, '.'] : Str) ∉ prefixes := by
  intro hm
  have h1 : ∀ w ∈ prefixes, w.getD 1 ' ' ≠ '.' := by decide
  exact h1 _ hm rfl

theorem initial_not_mem_prepositions (c : Char) : ([c, '.'] : Str) ∉ prepositions := by
  intro hm
  have h1 : ∀ w ∈ prepositions, w.getD 1 ' ' ≠ '.' := by decide
  exact h1 _ hm rfl

theorem abbrevAt_initial (j : Nat) (c : Char) : abbrevAt j [c, '.'] = [c, '.'] := by
  have hpre := contains_false_of_not_mem (initial_not_mem_prefixes c)
  have hprep := contains_false_of_not_mem (initial_not_mem_prepositions c)
  have h1 : ¬ (j = 0 ∧ prefixes.contains [c, '.'] = true) := by
    rintro ⟨_, hct⟩
    rw [hpre] at hct
    exact absurd hct (by simp)
  have h2 : ¬ (0 < j ∧ prepositions.contains [c, '.'] = true) := by
    rintro ⟨_, hct⟩
    rw [hprep] at hct
    exact absurd hct (by simp)
  unfold abbrevAt
  rw [if_neg h1, if_neg h2]
  rfl

theorem abbrevGo_init (s : Str) : ∀ (init : List Char) (j : Nat),
    abbrevGo (j + init.length) j ((init.map (fun c => [c, '.'])) ++ [s]) =
      (init.map (fun c => [c, '.'])) ++ [s] := by
  intro init
  induction init with
  | nil =>
    intro j
    simp [abbrevGo]
  | cons c init' ih =>
    intro j
    simp only [List.map_cons, List.cons_append, abbrevGo]
    rw [if_pos (by simp only [List.length_cons]; omega)]
    rw [abbrevAt_initial]
    congr 1
    rw [show j + (c :: init').length = (j + 1) + init'.length from by
      simp only [List.length_cons]; omega]
    exact ih (j + 1)

theorem initialsStep_good (init : List Char) (s : Str)
    (h4 : ¬ (s.length ≤ 3 ∧ ∀ c ∈ s, isUpperAscii c = true)) (h5 : s ∉ suffixes) :
    initialsStep ((init.map (fun c => [c, '.'])) ++ [s]) =
      (init.map (fun c => [c, '.'])) ++ [s] := by
  have hlast : ((init.map (fun c => [c, '.'])) ++ [s]).getLast? = some s :=
    List.getLast?_concat _
  have hguard : (decide (s.length ≤ 3) && !(suffixes.contains s)
      && s.all isUpperAscii) = false := by
    by_cases hlen : s.length ≤ 3
    · have hex : ∃ c ∈ s, ¬ isUpperAscii c = true := by
        by_contra hno
        push_neg at hno
        exact h4 ⟨hlen, hno⟩
      have hall : s.all isUpperAscii = false := List.all_eq_false.mpr hex
      rw [hall]
      simp
    · have hd : decide (s.length ≤ 3) = false := by simp [hlen]
      rw [hd]
      simp
  simp only [initialsStep, hlast]
  rw [if_neg (by rw [hguard]; simp)]

theorem numSuffixes_good (init : List Char) (s : Str) (h5 : s ∉ suffixes) :
    numSuffixes ((init.map (fun c => [c, '.'])) ++ [s]) = 0 := by
  unfold numSuffixes
  rw [List.reverse_concat, List.takeWhile_cons]
  rw [contains_false_of_not_mem h5]
  simp

theorem splitOn_words : ∀ (ws : List Str), ws ≠ [] → (∀ w ∈ ws, w ≠ []) →
    (∀ w ∈ ws, ' ' ∉ w) → splitOn ' ' (pyJoin [' '] ws) = ws := by
  intro ws
  induction ws with
  | nil => intro h; exact absurd rfl h
  | cons w ws' ih =>
    intro _ hne hsp
    cases ws' with
    | nil =>
      show splitOn ' ' w = [w]
      exact splitOn_no_sep w (fun c hc hceq => hsp w (by simp) (by rw [← hceq]; exact hc))
    | cons y ys =>
      have e : pyJoin [' '] (w :: y :: ys) = w ++ (' ' :: pyJoin [' '] (y :: ys)) := by
        simp only [pyJoin, List.append_assoc]
        rfl
      rw [e, splitOn_app w (fun c hc hceq => hsp w (by simp) (by rw [← hceq]; exact hc))]
      rw [splitOn_sep_cons]
      rw [ih (by simp) (fun u hu => hne u (by simp [hu])) (fun u hu => hsp u (by simp [hu]))]
      simp

theorem processToken_round (init : List Char) (s : Str)
    (h1 : ∀ c ∈ init, isUpperAscii c = true)
    (h2 : s ≠ []) (h3 : ∀ c ∈ s, isAsciiLetter c = true)
    (h4 : ¬ (s.length ≤ 3 ∧ ∀ c ∈ s, isUpperAscii c = true)) (h5 : s ∉ suffixes) :
    (processToken (pyJoin [' '] ((init.map (fun c => [c, '.'])) ++ [s]))).1 =
      pyJoin [' '] ((init.map (fun c => [c, '.'])) ++ [s]) := by
  have hwordne : ∀ w ∈ (init.map (fun c => [c, '.'])) ++ [s], w ≠ [] := by
    intro w hw
    rcases List.mem_append.mp hw with h | h
    · obtain ⟨c, _, rfl⟩ := List.mem_map.mp h
      simp
    · rcases List.mem_singleton.mp h with rfl
      exact h2
  have hnospace : ∀ w ∈ (init.map (fun c => [c, '.'])) ++ [s], ' ' ∉ w := by
    intro w hw hsp
    rcases List.mem_append.mp hw with h | h
    · obtain ⟨c, hc, rfl⟩ := List.mem_map.mp h
      rcases List.mem_cons.mp hsp with hceq | hsp'
      · have := h1 c hc
        rw [← hceq] at this
        exact absurd this (by decide)
      · rcases List.mem_singleton.mp hsp' with h'
        exact absurd h' (by decide)
    · rcases List.mem_singleton.mp h with rfl
      have := h3 ' ' hsp
      exact absurd this (by decide)
  have hjne : pyJoin [' '] ((init.map (fun c => [c, '.'])) ++ [s]) ≠ [] := by
    cases hx : (init.map (fun c => [c, '.'])) ++ [s] with
    | nil => simp at hx
    | cons w rest =>
      exact pyJoin_ne_nil [' '] w rest (hwordne w (by rw [hx]; simp))
  have hsplit : splitOn ' ' (pyJoin [' '] ((init.map (fun c => [c, '.'])) ++ [s]))
      = (init.map (fun c => [c, '.'])) ++ [s] :=
    splitOn_words _ (by simp) hwordne hnospace
  have habbrev : abbrevPass ((init.map (fun c => [c, '.'])) ++ [s])
      = (init.map (fun c => [c, '.'])) ++ [s] := by
    unfold abbrevPass
    rw [numSuffixes_good init s h5]
    rw [show ((init.map (fun c => [c, '.'])) ++ [s]).length - (1 + 0) = 0 + init.length from by
      simp [List.length_append, List.length_map]]
    exact abbrevGo_init s init 0
  unfold processToken
  rw [if_neg hjne]
  simp only [hsplit, initialsStep_good init s h4 h5, habbrev]
  rw [if_pos (by simpa using hwordne)]

/-! ### Part-level facts and the separator normalization of a display string -/

theorem getLast?_mem_self {α : Type} {l : List α} {a : α} (h : l.getLast? = some a) :
    a ∈ l := by
  obtain ⟨hne, heq⟩ := List.mem_getLast?_eq_getLast (show a ∈ l.getLast? from by
    rw [Option.mem_def]; exact h)
  rw [heq]
  exact List.getLast_mem hne

theorem getLastD_mem {α : Type} {l : List α} (h : l ≠ []) (d : α) : l.getLastD d ∈ l := by
  rw [List.getLastD_eq_getLast?]
  cases hx : l.getLast? with
  | none => exact absurd (List.getLast?_eq_none_iff.mp hx) h
  | some a =>
    simp only [Option.getD_some]
    exact getLast?_mem_self hx

theorem no_comma_infx {s : Str} (h : ',' ∉ s) (pt : Str) : ¬ (',' :: pt) <:+: s := by
  intro hx
  exact h (hx.sublist.subset (by simp))

theorem part_ne {p : Str} (h : goodPart p) : p ≠ [] := by
  obtain ⟨ws, hne, hgood, rfl⟩ := h
  obtain ⟨w, rest, rfl⟩ := List.exists_cons_of_ne_nil hne
  exact pyJoin_ne_nil [' '] w rest (hgood w (by simp)).1

theorem part_chars {p : Str} (h : goodPart p) : ∀ c ∈ p, isSafeChar c = true ∨ c = ' ' := by
  obtain ⟨ws, hne, hgood, rfl⟩ := h
  intro c hc
  rcases mem_pyJoin [' '] c ws hc with hsep | ⟨w, hw, hcw⟩
  · right; simpa using hsep
  · left; exact (hgood w hw).2.1 c hcw

theorem part_head {p : Str} (h : goodPart p) : isSafeChar (p.headD ' ') = true := by
  obtain ⟨ws, hne, hgood, rfl⟩ := h
  obtain ⟨w, rest, rfl⟩ := List.exists_cons_of_ne_nil hne
  have hw := hgood w (by simp)
  rw [pyJoin_headD [' '] ' ' rest w hw.1]
  obtain ⟨c, cs, hceq⟩ := List.exists_cons_of_ne_nil hw.1
  rw [hceq]
  exact hw.2.1 c (by rw [hceq]; simp)

theorem part_last {p : Str} (h : goodPart p) : isSafeChar (p.getLastD ' ') = true := by
  obtain ⟨ws, hne, hgood, rfl⟩ := h
  have hwords_ne : ∀ w ∈ ws, w ≠ [] := fun w hw => (hgood w hw).1
  have hlast := pyJoin_getLast [' '] ws hne hwords_ne
  rw [List.getLastD_eq_getLast?, hlast]
  have hwl_mem : ws.getLastD [] ∈ ws := getLastD_mem hne []
  have hwl_ne : ws.getLastD [] ≠ [] := hwords_ne _ hwl_mem
  cases hx : (ws.getLastD []).getLast? with
  | none => exact absurd (List.getLast?_eq_none_iff.mp hx) hwl_ne
  | some e =>
    simp only [Option.getD_some]
    exact (hgood _ hwl_mem).2.1 e (getLast?_mem_self hx)

theorem safe_not_space {c : Char} (h : isSafeChar c = true) : isPySpace c = false := by
  cases hx : isPySpace c with
  | false => rfl
  | true =>
    have hc := hx
    simp only [isPySpace, Bool.or_eq_true, decide_eq_true_eq] at hc
    rcases hc with ((((rfl | rfl) | rfl) | rfl) | rfl) | rfl <;> exact absurd h (by decide)

theorem safe_ne {c x : Char} (h : isSafeChar c = true) (hx : isSafeChar x = false) :
    c ≠ x := by
  intro he
  rw [he, hx] at h
  exact absurd h (by simp)

theorem part_no_comma {p : Str} (h : goodPart p) : ',' ∉ p := by
  intro hc
  rcases part_chars h ',' hc with hs | hs
  · exact absurd hs (by decide)
  · exact absurd hs (by decide)

/-- The separator normalization leaves a comma-joined list of good parts
unchanged: all four patterns are absent. -/
theorem sepNorm_fix {s : Str} (hsafe : SafeTail s) : sepNormalize s = s := by
  obtain ⟨h1, h2, h3, h4⟩ := safeTail_no_pat hsafe
  unfold sepNormalize
  rw [replace_eq_self (strL ", ") s (by decide) h2]
  rw [replace_eq_self (strL ", ") s (by decide) h3]
  rw [replace_eq_self (strL ", ") s (by decide) h1]
  rw [replace_eq_self (strL ",") s (by decide) h4]

/-- The separator normalization of the display rewrite of good parts is the
plain `", "`-join of the parts. -/
theorem sepNorm_display (ps : List Str) (hps : ∀ p ∈ ps, goodPart p) (hne : ps ≠ []) :
    sepNormalize (displayRewrite ps) = pyJoin (strL ", ") ps := by
  cases ps with
  | nil => exact absurd rfl hne
  | cons p ps' =>
    cases ps' with
    | nil =>
      have hD : displayRewrite [p] = p := rfl
      rw [hD]
      have hsafe := safeTail_parts [p] hps (by simp)
      have hj : pyJoin (strL ", ") [p] = p := rfl
      rw [hj] at hsafe
      rw [sepNorm_fix hsafe, hj]
    | cons q ps'' =>
      cases ps'' with
      | nil =>
        have hp := hps p (by simp)
        have hq := hps q (by simp)
        obtain ⟨wsp, hwspne, hwspgood, hpw⟩ := hp
        obtain ⟨wsq, hwsqne, hwsqgood, hqw⟩ := hq
        have hD : displayRewrite [p, q] = p ++ strL " and " ++ q := rfl
        rw [hD]
        have hnc : ',' ∉ p ++ strL " and " ++ q := by
          intro hc
          rcases List.mem_append.mp hc with hc' | hc'
          · rcases List.mem_append.mp hc' with hc'' | hc''
            · rcases part_chars (hps p (by simp)) ',' hc'' with hs | hs
              · exact absurd hs (by decide)
              · exact absurd hs (by decide)
            · exact absurd hc'' (by decide)
          · rcases part_chars (hps q (by simp)) ',' hc' with hs | hs
            · exact absurd hs (by decide)
            · exact absurd hs (by decide)
        have hn1 : ¬ (strL ", and ") <:+: (p ++ strL " and " ++ q) := by
          rw [show strL ", and " = ',' :: strL " and " from rfl]
          exact no_comma_infx hnc (strL " and ")
        have hn2 : ¬ (strL ",and ") <:+: (p ++ strL " and " ++ q) := by
          rw [show strL ",and " = ',' :: strL "and " from rfl]
          exact no_comma_infx hnc (strL "and ")
        have hpresafe : SafeTail (p ++ strL " and") := by
          rw [hpw]
          have hst := safeTail_words_tail wsp hwspgood hwspne (strL " ") (Or.inl rfl)
            (strL "and") SafeTail.andEnd
          rw [show strL " " ++ strL "and" = strL " and" from rfl] at hst
          exact hst
        have hdrop : (p ++ strL " and ").dropLast = p ++ strL " and" := by
          rw [List.dropLast_append_of_ne_nil p (by decide)]
          rfl
        have hqsafe : SafeTail q := by
          rw [hqw]; exact safeTail_words wsq hwsqgood hwsqne
        have e1 : replace (strL ", and ") (strL ", ") (p ++ strL " and " ++ q)
            = p ++ strL " and " ++ q :=
          replace_eq_self (strL ", ") _ (by decide) hn1
        have e2 : replace (strL ",and ") (strL ", ") (p ++ strL " and " ++ q)
            = p ++ strL " and " ++ q :=
          replace_eq_self (strL ", ") _ (by decide) hn2
        have e3 : replace (strL " and ") (strL ", ") (p ++ strL " and " ++ q)
            = p ++ strL ", " ++ q := by
          have hskip := @replace_skip (strL " and ") (strL ", ") p q (by decide)
            (by rw [hdrop]; exact (safeTail_no_pat hpresafe).1)
          rw [hskip]
          rw [replace_eq_self (strL ", ") q (by decide) (safeTail_no_pat hqsafe).1]
        have hj2 : p ++ strL ", " ++ q = pyJoin (strL ", ") [p, q] := rfl
        have hsafe2 := safeTail_parts [p, q] hps (by simp)
        have e4 : replace (strL ";") (strL ",") (pyJoin (strL ", ") [p, q])
            = pyJoin (strL ", ") [p, q] :=
          replace_eq_self (strL ",") _ (by decide) (safeTail_no_pat hsafe2).2.2.2
        unfold sepNormalize
        rw [e1, e2, e3, hj2, e4]
      | cons r rest =>
        set l := p :: q :: r :: rest with hl
        have hlne : l ≠ [] := by simp [hl]
        have hlen : 2 < l.length := by simp [hl]
        have hlast_mem : l.getLastD [] ∈ l := getLastD_mem hlne []
        have hlast_good := hps _ hlast_mem
        have hinit_ne : l.dropLast ≠ [] := by
          apply List.ne_nil_of_length_pos
          rw [List.length_dropLast]
          omega
        have hinit_good : ∀ u ∈ l.dropLast, goodPart u :=
          fun u hu => hps u (List.dropLast_subset l hu)
        have hdecomp : l.dropLast ++ [l.getLastD []] = l := by
          apply List.dropLast_append_getLast?
          rw [Option.mem_def, List.getLastD_eq_getLast?]
          cases hx : l.getLast? with
          | none => exact absurd (List.getLast?_eq_none_iff.mp hx) hlne
          | some a => rfl
        have hD : displayRewrite l =
            pyJoin (strL ", ") l.dropLast ++ strL ", and " ++ l.getLastD [] := by
          unfold displayRewrite
          rw [if_pos hlen]
          rfl
        rw [hD]
        have hpre : SafeTail (pyJoin (strL ", ") l.dropLast ++ strL ", and") := by
          have hst := safeTail_parts_tail l.dropLast hinit_good hinit_ne
            (strL "and") SafeTail.andEnd
          rw [show strL ", " ++ strL "and" = strL ", and" from rfl] at hst
          exact hst
        have hdrop : (pyJoin (strL ", ") l.dropLast ++ strL ", and ").dropLast =
            pyJoin (strL ", ") l.dropLast ++ strL ", and" := by
          rw [List.dropLast_append_of_ne_nil _ (by decide)]
          rfl
        have hlast_safe : SafeTail (l.getLastD []) := by
          obtain ⟨ws, hwne, hwgood, hw⟩ := hlast_good
          rw [hw]
          exact safeTail_words ws hwgood hwne
        have hjoin : pyJoin (strL ", ") l.dropLast ++ strL ", " ++ l.getLastD [] =
            pyJoin (strL ", ") l := by
          rw [← pyJoin_concat (strL ", ") l.dropLast (l.getLastD []) hinit_ne, hdecomp]
        have hsafe := safeTail_parts l hps hlne
        obtain ⟨n1, n2, n3, n4⟩ := safeTail_no_pat hsafe
        have e1 : replace (strL ", and ") (strL ", ")
            (pyJoin (strL ", ") l.dropLast ++ strL ", and " ++ l.getLastD [])
            = pyJoin (strL ", ") l := by
          have hskip := @replace_skip (strL ", and ") (strL ", ")
            (pyJoin (strL ", ") l.dropLast) (l.getLastD []) (by decide)
            (by rw [hdrop]; exact (safeTail_no_pat hpre).2.1)
          rw [hskip]
          rw [replace_eq_self (strL ", ") _ (by decide) (safeTail_no_pat hlast_safe).2.1]
          exact hjoin
        have e2 : replace (strL ",and ") (strL ", ") (pyJoin (strL ", ") l)
            = pyJoin (strL ", ") l :=
          replace_eq_self (strL ", ") _ (by decide) n3
        have e3 : replace (strL " and ") (strL ", ") (pyJoin (strL ", ") l)
            = pyJoin (strL ", ") l :=
          replace_eq_self (strL ", ") _ (by decide) n1
        have e4 : replace (strL ";") (strL ",") (pyJoin (strL ", ") l)
            = pyJoin (strL ", ") l :=
          replace_eq_self (strL ",") _ (by decide) n4
        unfold sepNormalize
        rw [e1, e2, e3, e4]

/-! ### Token extraction from the display string, and the idempotence claim -/

theorem tokensOf_display (ps : List Str) (hps : ∀ p ∈ ps, goodPart p) (hne : ps ≠ []) :
    tokensOf (displayRewrite ps) = ps := by
  unfold tokensOf
  rw [sepNorm_display ps hps hne]
  rw [splitOn_parts ps hne
    (fun p hp c hc hceq => part_no_comma (hps p hp) (by rw [← hceq]; exact hc))]
  obtain ⟨p0, prest, rfl⟩ := List.exists_cons_of_ne_nil hne
  simp only [List.headD_cons, List.tail_cons, List.map_cons, List.map_map]
  have hp0 := hps p0 (by simp)
  rw [pyStrip_no_space (part_ne hp0) (safe_not_space (part_head hp0))
    (safe_not_space (part_last hp0))]
  congr 1
  calc prest.map (pyStrip ∘ fun p => ' ' :: p)
      = prest.map id := by
        refine List.map_congr_left (fun p hp => ?_)
        have hgp := hps p (by simp [hp])
        exact pyStrip_space_cons (part_ne hgp) (safe_not_space (part_head hgp))
          (safe_not_space (part_last hgp))
    _ = prest := List.map_id prest

theorem display_last (ps : List Str) (hps : ∀ p ∈ ps, goodPart p) (hne : ps ≠ []) :
    isSafeChar ((displayRewrite ps).getLastD ' ') = true := by
  cases ps with
  | nil => exact absurd rfl hne
  | cons p ps' =>
    cases ps' with
    | nil =>
      rw [show displayRewrite [p] = p from rfl]
      exact part_last (hps p (by simp))
    | cons q ps'' =>
      cases ps'' with
      | nil =>
        rw [show displayRewrite [p, q] = p ++ strL " and " ++ q from rfl]
        have hq := hps q (by simp)
        rw [List.getLastD_eq_getLast?, getLast?_app (part_ne hq),
          ← List.getLastD_eq_getLast?]
        exact part_last hq
      | cons r rest =>
        have hlen : 2 < (p :: q :: r :: rest).length := by simp
        have hD : displayRewrite (p :: q :: r :: rest) =
            pyJoin (strL ", ") (p :: q :: r :: rest).dropLast ++ strL ", and " ++
              (p :: q :: r :: rest).getLastD [] := by
          unfold displayRewrite
          rw [if_pos hlen]
          rfl
        rw [hD]
        have hlast_good := hps _ (getLastD_mem (by simp) ([] : Str))
        rw [List.getLastD_eq_getLast?, getLast?_app (part_ne hlast_good),
          ← List.getLastD_eq_getLast?]
        exact part_last hlast_good

theorem goodPart_render {a : List Char × Str} (h : goodAuthor a) :
    goodPart (renderAuthor a) := by
  obtain ⟨h1, h2, h3, h4, h5, h6⟩ := h
  refine ⟨authorWords a, by simp [authorWords], ?_, rfl⟩
  intro w hw
  unfold authorWords at hw
  rcases List.mem_append.mp hw with hwi | hws
  · obtain ⟨c, hc, rfl⟩ := List.mem_map.mp hwi
    exact goodWord_initial (h1 c hc)
  · rcases List.mem_singleton.mp hws with rfl
    exact ⟨h2, fun c hc => safe_of_letter (h3 c hc), h6⟩

instance (a : List Char × Str) : Decidable (goodAuthor a) := by
  unfold goodAuthor; infer_instance

/-- The non-escaped branch of `processAuthors`, written out. -/
theorem processAuthors_not_escaped (s : Str) (h : ¬ escaped s) :
    processAuthors s =
      { authors := displayRewrite (((tokensOf s).map processToken).map Prod.fst)
        authors_list := ((tokensOf s).map processToken).map Prod.fst
        authors_list_simple :=
          some (List.flatten (((tokensOf s).map processToken).map Prod.snd))
        authors_bibtex :=
          some (pyJoin (strL " and ") (((tokensOf s).map processToken).map Prod.fst)) } := by
  unfold processAuthors
  rw [if_neg h]

/-- Claim C8: for already-abbreviated author names without dashes or
brackets (uppercase dotted initials plus an alphabetic surname that does not
trigger the initials heuristic, is no suffix word and is not `"and"`),
re-running normalization on the display string the pipeline produces yields
the same display names, and the display string is a fixed point. -/
theorem c8_normalize_idempotent (L : List (List Char × Str))
    (hne : L ≠ []) (hgood : ∀ a ∈ L, goodAuthor a) :
    (processAuthors (displayRewrite (L.map renderAuthor))).authors_list
      = L.map renderAuthor ∧
    (processAuthors (displayRewrite (L.map renderAuthor))).authors
      = displayRewrite (L.map renderAuthor) := by
  have hpsne : L.map renderAuthor ≠ [] := by
    simpa [List.map_eq_nil_iff] using hne
  have hpsgood : ∀ p ∈ L.map renderAuthor, goodPart p := by
    intro p hp
    obtain ⟨a, ha, rfl⟩ := List.mem_map.mp hp
    exact goodPart_render (hgood a ha)
  have hesc : ¬ escaped (displayRewrite (L.map renderAuthor)) := by
    rintro ⟨_, _, hl⟩
    have hsafe := display_last (L.map renderAuthor) hpsgood hpsne
    rw [hl] at hsafe
    exact absurd hsafe (by decide)
  have htok : tokensOf (displayRewrite (L.map renderAuthor)) = L.map renderAuthor :=
    tokensOf_display _ hpsgood hpsne
  have hmap : ((L.map renderAuthor).map processToken).map Prod.fst
      = L.map renderAuthor := by
    rw [List.map_map, List.map_map]
    refine List.map_congr_left (fun a ha => ?_)
    obtain ⟨h1, h2, h3, h4, h5, h6⟩ := hgood a ha
    exact processToken_round a.1 a.2 h1 h2 h3 h4 h5
  rw [processAuthors_not_escaped _ hesc, htok]
  exact ⟨hmap, congrArg displayRewrite hmap⟩

/-- Concrete three-author configuration for the idempotence witness. -/
def c8L : List (List Char × Str) :=
  [(['A'], strL "Smith"), (['B'], strL "Jones"), (['C'], strL "Lee")]

/-- Witness for C8 at `"A. Smith, B. Jones, and C. Lee"`. -/
theorem c8_normalize_idempotent_witness :
    (c8L ≠ [] ∧ ∀ a ∈ c8L, goodAuthor a) ∧
    (processAuthors (displayRewrite (c8L.map renderAuthor))).authors_list
      = c8L.map renderAuthor :=
  ⟨⟨by decide, by decide⟩, (c8_normalize_idempotent c8L (by decide) (by decide)).1⟩

end Pubs
